import Mathlib

/-!
# Verification of the decision-matrix weighted scoring and layout engine

Shallow embedding of the weighted scoring (WADD) engine, the score-matrix
reconciler, the proportional geometry allocator, the drag-reorder target
resolution, the resize-weight rescaling, and the modified-cell tracking of
the decision-visualization repository.  Numbers are modelled as rationals;
JavaScript objects (`Record<string, ...>`) are modelled as association
lists with first-match lookup (object keys are unique in every state the
program builds).
-/

namespace DecisionVis

/-- An option as consumed by the standalone WADD module (`wadd.ts`). -/
structure WaddOption where
  id : String
  weight : ℚ
deriving DecidableEq, Repr

/-- A factor as consumed by the standalone WADD module (`wadd.ts`). -/
structure WaddFactor where
  id : String
  weight : ℚ
deriving DecidableEq, Repr

/-- One row of the score matrix: option id to raw score. -/
abbrev ScoreRow := List (String × ℚ)

/-- The (possibly sparse) score matrix: factor id to row. -/
abbrev Scores := List (String × ScoreRow)

/-- Object-read of a row: `scores[fid]`. -/
def rowOf (s : Scores) (fid : String) : Option ScoreRow :=
  (s.find? (fun p => p.1 == fid)).map (fun p => p.2)

/-- Object-read of a cell inside a row: `row[oid]`. -/
def cellOf (row : ScoreRow) (oid : String) : Option ℚ :=
  (row.find? (fun p => p.1 == oid)).map (fun p => p.2)

/-- `scores[fid]?.[oid]` : the optional-chained double read. -/
def scoreAt (s : Scores) (fid oid : String) : Option ℚ :=
  match rowOf s fid with
  | none => none
  | some row => cellOf row oid

/-- Object-read of the result mapping produced by the scoring engine. -/
def lookupVal (l : List (String × ℚ)) (k : String) : Option ℚ :=
  (l.find? (fun p => p.1 == k)).map (fun p => p.2)

/-- `Number(x.toFixed(2))`: round to two decimal places. -/
def roundTo2 (x : ℚ) : ℚ := (round (x * 100) : ℤ) / 100

/-- Loop body of the factor accumulation in `computeWaddScores`:
updates the `(weightedTotal, weightSum)` pair for one factor. -/
def waddStep (optionWeight : ℚ) (oid : String) (scores : Scores)
    (acc : ℚ × ℚ) (factor : WaddFactor) : ℚ × ℚ :=
  let factorWeight := max 0 factor.weight
  if factorWeight = 0 ∨ optionWeight = 0 then acc
  else
    let rawScore := (scoreAt scores factor.id oid).getD 0
    let clamped := max (-1) (min 1 rawScore)
    let normalizedUtility := (clamped + 1) / 2
    let combinedWeight := factorWeight * optionWeight
    (acc.1 + combinedWeight * normalizedUtility, acc.2 + combinedWeight)

/-- The per-option body of `computeWaddScores` (`wadd.ts`). -/
def waddOptionScore (factors : List WaddFactor) (scores : Scores)
    (o : WaddOption) : ℚ :=
  let optionWeight := max 0 o.weight
  let acc := factors.foldl (waddStep optionWeight o.id scores) (0, 0)
  let normalized := if acc.2 = 0 then 0 else acc.1 / acc.2
  roundTo2 (normalized * 10)

/-- `computeWaddScores` from `wadd.ts`: one `(optionId, score)` entry per
option, in option order. -/
def computeWaddScores (options : List WaddOption) (factors : List WaddFactor)
    (scores : Scores) : List (String × ℚ) :=
  options.map (fun o => (o.id, waddOptionScore factors scores o))

/-- A factor as stored by the chart (`vis.ts`). -/
structure Factor where
  id : String
  label : String
  weight : ℚ
deriving DecidableEq, Repr

/-- An option as stored by the chart (`vis.ts`). -/
structure ChartOption where
  id : String
  label : String
  weight : ℚ
deriving DecidableEq, Repr

/-- The chart data relevant to scoring (`this.factors`, `this.options`,
`this.scores` of `DecisionLayoutChart`). -/
structure ChartState where
  factors : List Factor
  options : List ChartOption
  scores : Scores

/-- Loop body of the factor accumulation in
`DecisionLayoutChart.calculateWADDScores` (`vis.ts`). -/
def chartWaddStep (optionWeight : ℚ) (oid : String) (scores : Scores)
    (acc : ℚ × ℚ) (factor : Factor) : ℚ × ℚ :=
  let factorWeight := max 0 factor.weight
  if factorWeight = 0 ∨ optionWeight = 0 then acc
  else
    let rawScore := (scoreAt scores factor.id oid).getD 0
    let clamped := max (-1) (min 1 rawScore)
    let normalizedUtility := (clamped + 1) / 2
    let combinedWeight := factorWeight * optionWeight
    (acc.1 + combinedWeight * normalizedUtility, acc.2 + combinedWeight)

/-- `DecisionLayoutChart.calculateWADDScores` (`vis.ts`). -/
def calculateWADDScores (st : ChartState) : List (String × ℚ) :=
  st.options.map (fun o =>
    let optionWeight := max 0 o.weight
    let acc := st.factors.foldl (chartWaddStep optionWeight o.id st.scores) (0, 0)
    let normalized := if acc.2 = 0 then 0 else acc.1 / acc.2
    (o.id, roundTo2 (normalized * 10)))

/-- Forget the chart-only `label` field of a factor. -/
def factorToWadd (f : Factor) : WaddFactor := ⟨f.id, f.weight⟩

/-- Forget the chart-only `label` field of an option. -/
def chartOptionToWadd (o : ChartOption) : WaddOption := ⟨o.id, o.weight⟩

/-- Reference definition (from the spec's words): the combined weight
`factorWeight * optionWeight` of a factor for a given option weight. -/
def refCombinedWeight (ow : ℚ) (f : WaddFactor) : ℚ := (max 0 f.weight) * ow

/-- Reference definition (from the spec's words): missing-as-0 score entry
clamped to `[-1,1]` and mapped to the utility `(clamped+1)/2`. -/
def refUtility (scores : Scores) (oid : String) (f : WaddFactor) : ℚ :=
  ((max (-1) (min 1 ((scoreAt scores f.id oid).getD 0))) + 1) / 2

/-- Reference definition (from the spec's words): the factors that are not
skipped — a factor is skipped entirely when `factorWeight = 0` or
`optionWeight = 0`. -/
def refActiveFactors (ow : ℚ) (factors : List WaddFactor) : List WaddFactor :=
  factors.filter (fun f => decide (¬(max 0 f.weight = 0 ∨ ow = 0)))

/-- Reference definition (from the spec's words) of the per-option WADD
value: accumulate `weightedTotal` and `weightSum` over the non-skipped
factors, then `(weightedTotal/weightSum)*10` rounded to 2 decimal places
when `weightSum > 0`, else `0`. -/
def waddRefScore (factors : List WaddFactor) (scores : Scores)
    (o : WaddOption) : ℚ :=
  let ow := max 0 o.weight
  let active := refActiveFactors ow factors
  let weightedTotal :=
    (active.map (fun f => refCombinedWeight ow f * refUtility scores o.id f)).sum
  let weightSum := (active.map (refCombinedWeight ow)).sum
  if 0 < weightSum then roundTo2 ((weightedTotal / weightSum) * 10) else 0

/-- Remove one factor's score row (used to state the zero-weight-factor
removal claim: the factor and its score row are removed). -/
def eraseRow (s : Scores) (fid : String) : Scores :=
  s.filter (fun p => !(p.1 == fid))

/-- An option as stored by the builder's `UIState`
(`layoutBuilderFactory.ts`). -/
structure UIOption where
  id : String
  label : String
deriving DecidableEq, Repr

/-- A factor as stored by the builder's `UIState`. -/
structure UIFactor where
  id : String
  label : String
  uiImportance : ℚ
deriving DecidableEq, Repr

/-- The builder's `UIState` (`layoutBuilderFactory.ts`). -/
structure UIState where
  options : List UIOption
  factors : List UIFactor
  scoresUI : Scores

/-- `reconcileScores` (`layoutBuilderFactory.ts`): rebuilds the score
matrix with one row per factor of `next` and, inside it, one cell per
option of `next`; a cell keeps `prev`'s value when that entry existed and
otherwise gets the rating-scale midpoint `3` (`kept ?? 3`).  The source
assigns the rebuilt matrix to `next.scoresUI`; the embedding returns it. -/
def reconcileScores (prev next : UIState) : Scores :=
  next.factors.map (fun f =>
    (f.id, next.options.map (fun o =>
      (o.id, (scoreAt prev.scoresUI f.id o.id).getD 3))))

/-- A score matrix is exactly populated for the given factor and option
ids: its row keys are exactly the factor ids and every row's cell keys
are exactly the option ids (up to order). -/
def exactlyPopulated (sc : Scores) (fids oids : List String) : Prop :=
  (sc.map Prod.fst).Perm fids ∧ ∀ p ∈ sc, (p.2.map Prod.fst).Perm oids

/-- `` `${fid}__${oid}` ``: the modified-cell key (`cellKey` in `vis.ts`
and in `layoutBuilderFactory.ts`). -/
def cellKeyStr (fid oid : String) : String := fid ++ "__" ++ oid

/-- The set of valid cell keys built by `syncModifiedCells` (`vis.ts`):
every `cellKey(f.id, o.id)` over current factors and options. -/
def chartValidKeys (factors : List Factor) (options : List ChartOption) :
    List String :=
  factors.flatMap (fun f => options.map (fun o => cellKeyStr f.id o.id))

/-- `DecisionLayoutChart.syncModifiedCells` (`vis.ts`): with an explicit
`modified` iterable, its valid keys become the new set; otherwise the
current set is filtered down to the valid keys. -/
def syncModifiedCells (factors : List Factor) (options : List ChartOption)
    (current : List String) (modified : Option (List String)) : List String :=
  let valid := chartValidKeys factors options
  match modified with
  | some m => m.filter (fun key => valid.contains key)
  | none => current.filter (fun key => valid.contains key)

/-- The set of valid cell keys built by `pruneTouched`
(`layoutBuilderFactory.ts`). -/
def builderValidKeys (factors : List UIFactor) (options : List UIOption) :
    List String :=
  factors.flatMap (fun f => options.map (fun o => cellKeyStr f.id o.id))

/-- `pruneTouched` (`layoutBuilderFactory.ts`): deletes every touched key
that is not a currently valid cell key. -/
def pruneTouched (factors : List UIFactor) (options : List UIOption)
    (touched : List String) : List String :=
  touched.filter (fun key => (builderValidKeys factors options).contains key)

/-- The row-extent allocation of `render` (`vis.ts`, rows), with the
fixed `MIN_ROW_PX` modelled as the parameter `minPx`: weights clamped at
0, total weight floored at `1e-6`, remaining space above the per-item
minimum distributed proportionally to weight, uniform compression when
even the minimums do not fit, and a final uniform scale-down pass when
the total still exceeds the available extent. -/
def allocateRowHeights (weights : List ℚ) (minPx avail : ℚ) : List ℚ :=
  let ws := weights.map (fun w => max 0 w)
  let totalW := max (1 / 1000000) ws.sum
  let base := minPx * (weights.length : ℚ)
  let free := max 0 (avail - base)
  let compress := if avail < base then avail / base else 1
  let heights := ws.map (fun w => (minPx + free * (w / totalW)) * compress)
  if avail < heights.sum then heights.map (fun h => h * (avail / heights.sum))
  else heights

/-- The column-extent allocation of `render` (`vis.ts`, columns): the
same proportional scheme with the column gap added to every width before
the final fit pass. -/
def allocateColWidths (weights : List ℚ) (minPx avail gap : ℚ) : List ℚ :=
  let ws := weights.map (fun w => max 0 w)
  let totalW := max (1 / 1000000) ws.sum
  let base := minPx * (weights.length : ℚ)
  let free := max 0 (avail - base)
  let compress := if avail < base then avail / base else 1
  let widths := ws.map (fun w => (minPx + free * (w / totalW)) * compress + gap)
  if avail < widths.sum then widths.map (fun w => w * (avail / widths.sum))
  else widths

/-- The row extent before compression (compression factor forced to 1):
the "uncompressed value" of the allocator-compression claim. -/
def uncompressedRowHeight (weights : List ℚ) (minPx avail w : ℚ) : ℚ :=
  let ws := weights.map (fun x => max 0 x)
  let totalW := max (1 / 1000000) ws.sum
  let free := max 0 (avail - minPx * (weights.length : ℚ))
  minPx + free * (max 0 w / totalW)

/-- Center of item `i` in a row/column layout given static offsets and
extents (`colLefts[i] + colWidths[i]/2`, `rowTops[i] + rowHeights[i]/2`). -/
def centerAt (offsets extents : List ℚ) (i : ℕ) : ℚ :=
  offsets.getD i 0 + extents.getD i 0 / 2

/-- The drag-end reorder target resolution of `render` (`vis.ts`),
identical for option columns and factor rows: scan every index in order,
remember `i + 1` for the last other item whose center lies before the
dragged center, then decrement once when the result exceeds the dragged
item's original index. -/
def resolveReorderTarget (offsets extents : List ℚ) (idx : ℕ)
    (draggedCenter : ℚ) : ℕ :=
  let rawIdx := (List.range offsets.length).foldl
    (fun acc i =>
      if i = idx then acc
      else if centerAt offsets extents i < draggedCenter then i + 1 else acc) 0
  if idx < rawIdx then rawIdx - 1 else rawIdx

/-- The number of other items whose center lies strictly before the
dragged item's center. -/
def countCentersBefore (offsets extents : List ℚ) (idx : ℕ)
    (draggedCenter : ℚ) : ℕ :=
  ((List.range offsets.length).filter
    (fun i => decide (i ≠ idx)
      && decide (centerAt offsets extents i < draggedCenter))).length

/-- The reorder target as worded by the spec: the count of other items
whose center lies before the dragged center, minus one when that count
exceeds the dragged item's original index. -/
def specReorderTarget (offsets extents : List ℚ) (idx : ℕ)
    (draggedCenter : ℚ) : ℕ :=
  let count := countCentersBefore offsets extents idx draggedCenter
  if idx < count then count - 1 else count

/-- Abstract form of the reorder scan loop: fold over `0..n-1` keeping
`i + 1` for the last index satisfying `p`. -/
def lastHitLoop (p : ℕ → Bool) (n : ℕ) : ℕ :=
  (List.range n).foldl (fun acc i => if p i then i + 1 else acc) 0

/-- The row-resize drag handler of `render` (`vis.ts`): the new extent is
floored at 10 px, the weight is rescaled by the extent ratio and clamped
to the supported range `[1, 2]`. -/
def rowResizeNewWeight (startWeight startExtent delta : ℚ) : ℚ :=
  let newHeight := max 10 (startExtent + delta)
  let newWeight := startWeight * (newHeight / startExtent)
  max 1 (min 2 newWeight)

/-- `clamp(v, lo, hi)` as worded by the spec. -/
def clampQ (v lo hi : ℚ) : ℚ := max lo (min hi v)

/-! ## Basic lemmas on the scoring fold -/

lemma foldl_waddStep_eq (ow : ℚ) (oid : String) (scores : Scores) :
    ∀ (fs : List WaddFactor) (a b : ℚ),
      fs.foldl (waddStep ow oid scores) (a, b)
        = (a + ((refActiveFactors ow fs).map
              (fun f => refCombinedWeight ow f * refUtility scores oid f)).sum,
           b + ((refActiveFactors ow fs).map (refCombinedWeight ow)).sum) := by
  intro fs
  induction fs with
  | nil => intro a b; simp [refActiveFactors]
  | cons f fs ih =>
    intro a b
    by_cases hc : max 0 f.weight = 0 ∨ ow = 0
    · have hstep : waddStep ow oid scores (a, b) f = (a, b) := by
        unfold waddStep
        rw [if_pos hc]
      have hfilter : refActiveFactors ow (f :: fs) = refActiveFactors ow fs := by
        unfold refActiveFactors
        rw [List.filter_cons,
          if_neg (by simp only [decide_eq_true_eq, Decidable.not_not]; exact hc)]
      simp only [List.foldl_cons, hstep, hfilter, ih]
    · have hstep : waddStep ow oid scores (a, b) f
          = (a + refCombinedWeight ow f * refUtility scores oid f,
             b + refCombinedWeight ow f) := by
        unfold waddStep
        rw [if_neg hc]
        rfl
      have hfilter : refActiveFactors ow (f :: fs) = f :: refActiveFactors ow fs := by
        unfold refActiveFactors
        rw [List.filter_cons,
          if_pos (by simp only [decide_eq_true_eq, Decidable.not_not]; exact hc)]
      simp only [List.foldl_cons, hstep, hfilter, ih, List.map_cons, List.sum_cons,
        Prod.mk.injEq]
      constructor <;> ring

lemma refCombinedWeight_nonneg (ow : ℚ) (how : 0 ≤ ow) (f : WaddFactor) :
    0 ≤ refCombinedWeight ow f :=
  mul_nonneg (le_max_left 0 f.weight) how

lemma refUtility_mem_Icc (scores : Scores) (oid : String) (f : WaddFactor) :
    0 ≤ refUtility scores oid f ∧ refUtility scores oid f ≤ 1 := by
  unfold refUtility
  set raw := (scoreAt scores f.id oid).getD 0 with hraw
  have h1 : (-1 : ℚ) ≤ max (-1) (min 1 raw) := le_max_left _ _
  have h2 : max (-1 : ℚ) (min 1 raw) ≤ 1 :=
    max_le (by norm_num) (min_le_left _ _)
  constructor <;> [linarith; linarith]

lemma weightSum_nonneg (ow : ℚ) (how : 0 ≤ ow) (factors : List WaddFactor) :
    0 ≤ ((refActiveFactors ow factors).map (refCombinedWeight ow)).sum := by
  apply List.sum_nonneg
  intro x hx
  rcases List.mem_map.1 hx with ⟨f, _, rfl⟩
  exact refCombinedWeight_nonneg ow how f

lemma weightedTotal_nonneg (ow : ℚ) (how : 0 ≤ ow) (factors : List WaddFactor)
    (scores : Scores) (oid : String) :
    0 ≤ ((refActiveFactors ow factors).map
        (fun f => refCombinedWeight ow f * refUtility scores oid f)).sum := by
  apply List.sum_nonneg
  intro x hx
  rcases List.mem_map.1 hx with ⟨f, _, rfl⟩
  exact mul_nonneg (refCombinedWeight_nonneg ow how f) (refUtility_mem_Icc scores oid f).1

lemma weightedTotal_le_weightSum (ow : ℚ) (how : 0 ≤ ow) (factors : List WaddFactor)
    (scores : Scores) (oid : String) :
    ((refActiveFactors ow factors).map
        (fun f => refCombinedWeight ow f * refUtility scores oid f)).sum
      ≤ ((refActiveFactors ow factors).map (refCombinedWeight ow)).sum := by
  apply List.sum_le_sum
  intro f hf
  have h := refUtility_mem_Icc scores oid f
  have hcw := refCombinedWeight_nonneg ow how f
  nlinarith [h.1, h.2, hcw]

lemma roundTo2_zero : roundTo2 0 = 0 := by
  unfold roundTo2
  norm_num

lemma waddOptionScore_eq_ref (factors : List WaddFactor) (scores : Scores)
    (o : WaddOption) :
    waddOptionScore factors scores o = waddRefScore factors scores o := by
  simp only [waddOptionScore, waddRefScore]
  have hfold := foldl_waddStep_eq (max 0 o.weight) o.id scores factors 0 0
  rw [hfold]
  simp only [zero_add]
  set S := ((refActiveFactors (max 0 o.weight) factors).map
    (refCombinedWeight (max 0 o.weight))).sum with hS
  set T := ((refActiveFactors (max 0 o.weight) factors).map
    (fun f => refCombinedWeight (max 0 o.weight) f * refUtility scores o.id f)).sum with hT
  have hSnn : 0 ≤ S := weightSum_nonneg _ (le_max_left 0 o.weight) factors
  by_cases hz : S = 0
  · rw [if_pos hz, if_neg (by rw [hz]; exact lt_irrefl 0)]
    rw [zero_mul, roundTo2_zero]
  · rw [if_neg hz, if_pos (lt_of_le_of_ne hSnn (Ne.symm hz))]

/-! ## Association-list lookup lemmas -/

lemma find_map_key {α β : Type} (key : α → String) (g : α → β) :
    ∀ (l : List α), (l.map key).Nodup → ∀ x ∈ l,
      ((l.map (fun a => (key a, g a))).find? (fun p => p.1 == key x))
        = some (key x, g x) := by
  intro l
  induction l with
  | nil => intro _ x hx; cases hx
  | cons a l ih =>
    intro hn x hx
    simp only [List.map_cons, List.nodup_cons] at hn
    rcases List.mem_cons.1 hx with rfl | hxl
    · simp [List.find?_cons]
    · by_cases hk : key a = key x
      · exact absurd (hk ▸ List.mem_map_of_mem key hxl) hn.1
      · rw [List.map_cons, List.find?_cons]
        have hfalse : ((key a, g a).1 == key x) = false := by simp [hk]
        simp only [hfalse]
        exact ih hn.2 x hxl

lemma find_map_key_none {α β : Type} (key : α → String) (g : α → β)
    (l : List α) (k : String) (hk : k ∉ l.map key) :
    ((l.map (fun a => (key a, g a))).find? (fun p => p.1 == k)) = none := by
  rw [List.find?_eq_none]
  intro p hp
  rcases List.mem_map.1 hp with ⟨a, ha, rfl⟩
  simp only [beq_iff_eq]
  intro hcontra
  exact hk (hcontra ▸ List.mem_map_of_mem key ha)

lemma calculateWADDScores_eq_compute (st : ChartState) :
    calculateWADDScores st
      = computeWaddScores (st.options.map chartOptionToWadd)
          (st.factors.map factorToWadd) st.scores := by
  unfold calculateWADDScores computeWaddScores waddOptionScore
  rw [List.map_map]
  apply List.map_congr_left
  intro o ho
  simp only [Function.comp_apply, chartOptionToWadd, List.foldl_map]
  rfl

/-- C1: for every ordered option list (with the usual unique ids), factor
list and sparse score matrix, `computeWaddScores` returns a mapping with
exactly one entry per option id, each entry's value equal to the reference
per-option WADD definition (degenerate weights skipped, missing scores
read as 0, clamped to `[-1,1]`, mapped to `(clamped+1)/2`, weighted by
`factorWeight*optionWeight`, normalized and scaled to `[0,10]` with
2-decimal rounding, 0 when `weightSum = 0`); and the chart's internal
`calculateWADDScores` computes exactly `computeWaddScores` on its state. -/
theorem wadd_matches_reference (options : List WaddOption)
    (factors : List WaddFactor) (scores : Scores)
    (hn : (options.map WaddOption.id).Nodup) :
    ((computeWaddScores options factors scores).map Prod.fst
        = options.map WaddOption.id)
    ∧ (∀ o ∈ options,
        lookupVal (computeWaddScores options factors scores) o.id
          = some (waddRefScore factors scores o))
    ∧ (∀ st : ChartState,
        calculateWADDScores st
          = computeWaddScores (st.options.map chartOptionToWadd)
              (st.factors.map factorToWadd) st.scores) := by
  refine ⟨?_, ?_, fun st => calculateWADDScores_eq_compute st⟩
  · simp [computeWaddScores, List.map_map, Function.comp]
  · intro o ho
    unfold lookupVal computeWaddScores
    rw [find_map_key WaddOption.id (waddOptionScore factors scores) options hn o ho]
    rw [Option.map_some']
    rw [waddOptionScore_eq_ref]

/-- Witness for C1 at a concrete input. -/
theorem wadd_matches_reference_witness :
    lookupVal (computeWaddScores [⟨"a", 1⟩] [⟨"f1", 1⟩] [("f1", [("a", 1)])]) "a"
      = some (waddRefScore [⟨"f1", 1⟩] [("f1", [("a", 1)])] ⟨"a", 1⟩) :=
  (wadd_matches_reference [⟨"a", 1⟩] [⟨"f1", 1⟩] [("f1", [("a", 1)])]
      (by simp)).2.1 ⟨"a", 1⟩ (by simp)

/-! ## Range of the WADD output -/

lemma roundTo2_bounds (x : ℚ) (h0 : 0 ≤ x) (h10 : x ≤ 10) :
    0 ≤ roundTo2 x ∧ roundTo2 x ≤ 10 := by
  unfold roundTo2
  rw [round_eq]
  have hfl : (0 : ℤ) ≤ ⌊x * 100 + 1 / 2⌋ := by
    apply Int.le_floor.2
    push_cast
    linarith
  have h2 : (⌊x * 100 + 1 / 2⌋ : ℚ) < 1001 := by
    have h := Int.floor_le (x * 100 + 1 / 2)
    linarith
  have h3 : ⌊x * 100 + 1 / 2⌋ < 1001 := by exact_mod_cast h2
  constructor
  · apply div_nonneg _ (by norm_num)
    exact_mod_cast hfl
  · rw [div_le_iff₀ (by norm_num : (0 : ℚ) < 100)]
    have : (⌊x * 100 + 1 / 2⌋ : ℚ) ≤ 1000 := by
      have : ⌊x * 100 + 1 / 2⌋ ≤ 1000 := by omega
      exact_mod_cast this
    linarith

lemma waddOptionScore_bounds (factors : List WaddFactor) (scores : Scores)
    (o : WaddOption) :
    0 ≤ waddOptionScore factors scores o ∧ waddOptionScore factors scores o ≤ 10 := by
  simp only [waddOptionScore]
  rw [foldl_waddStep_eq]
  simp only [zero_add]
  set ow := max 0 o.weight with how
  have hown : 0 ≤ ow := le_max_left 0 o.weight
  set S := ((refActiveFactors ow factors).map (refCombinedWeight ow)).sum with hS
  set T := ((refActiveFactors ow factors).map
    (fun f => refCombinedWeight ow f * refUtility scores o.id f)).sum with hT
  have hSnn : 0 ≤ S := weightSum_nonneg ow hown factors
  have hTnn : 0 ≤ T := weightedTotal_nonneg ow hown factors scores o.id
  have hTS : T ≤ S := weightedTotal_le_weightSum ow hown factors scores o.id
  by_cases hz : S = 0
  · rw [if_pos hz, zero_mul, roundTo2_zero]
    norm_num
  · rw [if_neg hz]
    have hSpos : 0 < S := lt_of_le_of_ne hSnn (Ne.symm hz)
    apply roundTo2_bounds
    · have := div_nonneg hTnn hSnn
      linarith
    · have hle1 : T / S ≤ 1 := (div_le_one hSpos).2 hTS
      linarith

lemma refActiveFactors_eq_nil (ow : ℚ) (factors : List WaddFactor)
    (h : ∀ f ∈ factors, max 0 f.weight = 0 ∨ ow = 0) :
    refActiveFactors ow factors = [] := by
  unfold refActiveFactors
  rw [List.filter_eq_nil_iff]
  intro f hf
  simp only [decide_eq_true_eq, Decidable.not_not]
  exact h f hf

lemma waddOptionScore_degenerate (factors : List WaddFactor) (scores : Scores)
    (o : WaddOption)
    (h : ∀ f ∈ factors, max 0 f.weight = 0 ∨ max 0 o.weight = 0) :
    waddOptionScore factors scores o = 0 := by
  simp only [waddOptionScore]
  rw [foldl_waddStep_eq]
  rw [refActiveFactors_eq_nil _ _ h]
  simp [roundTo2_zero]

/-- C5: under the claim's hypotheses (scores in `[-1,1]`, non-negative
weights) every value of `computeWaddScores` lies in `[0,10]`, the result
has exactly one entry per option; with no factors, or with no positive
combined weight anywhere, the result is zero-filled rather than a failure
or out-of-range value. -/
theorem wadd_range_and_zero_fill (options : List WaddOption)
    (factors : List WaddFactor) (scores : Scores)
    (hsc : ∀ p ∈ scores, ∀ q ∈ p.2, -1 ≤ q.2 ∧ q.2 ≤ 1)
    (how : ∀ o ∈ options, 0 ≤ o.weight)
    (hfw : ∀ f ∈ factors, 0 ≤ f.weight) :
    (∀ p ∈ computeWaddScores options factors scores, 0 ≤ p.2 ∧ p.2 ≤ 10)
    ∧ ((computeWaddScores options factors scores).map Prod.fst
        = options.map WaddOption.id)
    ∧ (factors = [] →
        ∀ p ∈ computeWaddScores options factors scores, p.2 = 0)
    ∧ ((∀ f ∈ factors, ∀ o ∈ options,
          max 0 f.weight * max 0 o.weight = 0) →
        ∀ p ∈ computeWaddScores options factors scores, p.2 = 0) := by
  refine ⟨?_, ?_, ?_, ?_⟩
  · intro p hp
    rcases List.mem_map.1 hp with ⟨o, ho, rfl⟩
    exact waddOptionScore_bounds factors scores o
  · simp [computeWaddScores, List.map_map, Function.comp]
  · rintro rfl p hp
    rcases List.mem_map.1 hp with ⟨o, ho, rfl⟩
    exact waddOptionScore_degenerate [] scores o (by simp)
  · intro hzero p hp
    rcases List.mem_map.1 hp with ⟨o, ho, rfl⟩
    apply waddOptionScore_degenerate factors scores o
    intro f hf
    exact mul_eq_zero.1 (hzero f hf o ho)

/-- Witness for C5 at a concrete input. -/
theorem wadd_range_and_zero_fill_witness :
    0 ≤ (("a", waddOptionScore [⟨"f1", 1⟩] [("f1", [("a", 1)])] ⟨"a", 1⟩) : String × ℚ).2
      ∧ (("a", waddOptionScore [⟨"f1", 1⟩] [("f1", [("a", 1)])] ⟨"a", 1⟩) : String × ℚ).2 ≤ 10 :=
  (wadd_range_and_zero_fill [⟨"a", 1⟩] [⟨"f1", 1⟩] [("f1", [("a", 1)])]
      (by norm_num) (by norm_num) (by norm_num)).1
    ("a", waddOptionScore [⟨"f1", 1⟩] [("f1", [("a", 1)])] ⟨"a", 1⟩)
    (by simp [computeWaddScores])


/-! ## Zero-weight factors contribute nothing -/

lemma rowOf_eraseRow (fid gid : String) (h : gid ≠ fid) :
    ∀ s : Scores, rowOf (eraseRow s fid) gid = rowOf s gid := by
  intro s
  induction s with
  | nil => rfl
  | cons p s ih =>
    by_cases hp : p.1 = fid
    · have hdrop : eraseRow (p :: s) fid = eraseRow s fid := by
        unfold eraseRow
        rw [List.filter_cons, if_neg (by simp [hp])]
      have hskip : rowOf (p :: s) gid = rowOf s gid := by
        unfold rowOf
        rw [List.find?_cons]
        have : (p.1 == gid) = false := by
          rw [hp]
          exact beq_eq_false_iff_ne.2 (Ne.symm h)
        simp only [this]
      rw [hdrop, ih, hskip]
    · have hkeep : eraseRow (p :: s) fid = p :: eraseRow s fid := by
        unfold eraseRow
        rw [List.filter_cons, if_pos (by simp [hp])]
      rw [hkeep]
      unfold rowOf
      rw [List.find?_cons, List.find?_cons]
      cases hq : (p.1 == gid) with
      | true => simp only
      | false =>
        simp only
        exact ih

lemma scoreAt_eraseRow (s : Scores) (fid gid oid : String) (h : gid ≠ fid) :
    scoreAt (eraseRow s fid) gid oid = scoreAt s gid oid := by
  unfold scoreAt
  rw [rowOf_eraseRow fid gid h]

lemma waddStep_eraseRow (ow : ℚ) (oid : String) (s : Scores) (fid : String)
    (f : WaddFactor) (h : f.id ≠ fid) (acc : ℚ × ℚ) :
    waddStep ow oid (eraseRow s fid) acc f = waddStep ow oid s acc f := by
  unfold waddStep
  rw [scoreAt_eraseRow s fid f.id oid h]

lemma foldl_waddStep_eraseRow (ow : ℚ) (oid : String) (s : Scores) (fid : String) :
    ∀ (fs : List WaddFactor), (∀ g ∈ fs, g.id ≠ fid) → ∀ acc : ℚ × ℚ,
      fs.foldl (waddStep ow oid (eraseRow s fid)) acc
        = fs.foldl (waddStep ow oid s) acc := by
  intro fs
  induction fs with
  | nil => intro _ acc; rfl
  | cons g fs ih =>
    intro hids acc
    simp only [List.foldl_cons]
    rw [waddStep_eraseRow ow oid s fid g (hids g (List.mem_cons_self g fs)) acc]
    exact ih (fun x hx => hids x (List.mem_cons_of_mem g hx)) _

/-- C6: removing a factor whose weight is `≤ 0` (treated as weight 0),
together with its score row, leaves the mapping returned by
`computeWaddScores` unchanged: such a factor contributes to neither
accumulator for any option.  (As everywhere, factor ids are unique, so
the removed row is read by no other factor.) -/
theorem zero_weight_factor_removal (options : List WaddOption)
    (fs1 fs2 : List WaddFactor) (f : WaddFactor) (scores : Scores)
    (hw : f.weight ≤ 0)
    (hid : f.id ∉ (fs1 ++ fs2).map WaddFactor.id) :
    computeWaddScores options (fs1 ++ f :: fs2) scores
      = computeWaddScores options (fs1 ++ fs2) (eraseRow scores f.id) := by
  unfold computeWaddScores
  apply List.map_congr_left
  intro o ho
  have hids : ∀ g ∈ fs1 ++ fs2, g.id ≠ f.id := by
    intro g hg hcontra
    exact hid (hcontra ▸ List.mem_map_of_mem WaddFactor.id hg)
  simp only [Prod.mk.injEq, true_and]
  simp only [waddOptionScore]
  have hskip : ∀ acc : ℚ × ℚ,
      waddStep (max 0 o.weight) o.id scores acc f = acc := by
    intro acc
    unfold waddStep
    rw [if_pos (Or.inl (max_eq_left hw))]
  rw [List.foldl_append, List.foldl_cons, List.foldl_append]
  rw [hskip]
  rw [foldl_waddStep_eraseRow (max 0 o.weight) o.id scores f.id fs1
    (fun g hg => hids g (List.mem_append_left fs2 hg))]
  rw [foldl_waddStep_eraseRow (max 0 o.weight) o.id scores f.id fs2
    (fun g hg => hids g (List.mem_append_right fs1 hg))]

/-- Witness for C6 at a concrete input. -/
theorem zero_weight_factor_removal_witness :
    computeWaddScores [⟨"a", 1⟩] ([⟨"g", 1⟩] ++ ⟨"z", 0⟩ :: []) 
        [("g", [("a", 1)]), ("z", [("a", -1)])]
      = computeWaddScores [⟨"a", 1⟩] ([⟨"g", 1⟩] ++ [])
          (eraseRow [("g", [("a", 1)]), ("z", [("a", -1)])] "z") :=
  zero_weight_factor_removal [⟨"a", 1⟩] [⟨"g", 1⟩] [] ⟨"z", 0⟩
    [("g", [("a", 1)]), ("z", [("a", -1)])] (by norm_num) (by simp)

/-! ## Reconciliation lemmas -/

lemma scoreAt_eq_of_rowOf (sc : Scores) (fid oid : String) (row : ScoreRow)
    (h : rowOf sc fid = some row) : scoreAt sc fid oid = cellOf row oid := by
  unfold scoreAt
  rw [h]

lemma scoreAt_eq_none_of_rowOf_none (sc : Scores) (fid oid : String)
    (h : rowOf sc fid = none) : scoreAt sc fid oid = none := by
  unfold scoreAt
  rw [h]

lemma rowOf_isSome_iff (sc : Scores) (fid : String) :
    (rowOf sc fid).isSome ↔ fid ∈ sc.map Prod.fst := by
  unfold rowOf
  rw [Option.isSome_map']
  rw [List.find?_isSome]
  constructor
  · rintro ⟨p, hp, hbeq⟩
    have : p.1 = fid := by simpa using hbeq
    exact this ▸ List.mem_map_of_mem Prod.fst hp
  · intro hmem
    rcases List.mem_map.1 hmem with ⟨p, hp, rfl⟩
    exact ⟨p, hp, by simp⟩

lemma cellOf_isSome_iff (row : ScoreRow) (oid : String) :
    (cellOf row oid).isSome ↔ oid ∈ row.map Prod.fst := by
  unfold cellOf
  rw [Option.isSome_map']
  rw [List.find?_isSome]
  constructor
  · rintro ⟨p, hp, hbeq⟩
    have : p.1 = oid := by simpa using hbeq
    exact this ▸ List.mem_map_of_mem Prod.fst hp
  · intro hmem
    rcases List.mem_map.1 hmem with ⟨p, hp, rfl⟩
    exact ⟨p, hp, by simp⟩

lemma rowOf_eq_some_mem (sc : Scores) (fid : String) (row : ScoreRow)
    (h : rowOf sc fid = some row) : (fid, row) ∈ sc := by
  unfold rowOf at h
  rcases Option.map_eq_some'.1 h with ⟨p, hfind, hsnd⟩
  have hmem := List.mem_of_find?_eq_some hfind
  have hpred := List.find?_some hfind
  have h1 : p.1 = fid := by simpa using hpred
  have : p = (fid, row) := by
    cases p
    simp only at hsnd h1
    rw [h1, hsnd]
  exact this ▸ hmem

lemma reconcile_keys (prev next : UIState) :
    (reconcileScores prev next).map Prod.fst = next.factors.map UIFactor.id := by
  simp [reconcileScores, List.map_map, Function.comp]

lemma reconcile_rowOf (prev next : UIState)
    (hf : (next.factors.map UIFactor.id).Nodup)
    (f : UIFactor) (hfmem : f ∈ next.factors) :
    rowOf (reconcileScores prev next) f.id
      = some (next.options.map (fun o =>
          (o.id, (scoreAt prev.scoresUI f.id o.id).getD 3))) := by
  unfold rowOf reconcileScores
  rw [find_map_key UIFactor.id
    (fun f => next.options.map (fun o =>
      (o.id, (scoreAt prev.scoresUI f.id o.id).getD 3)))
    next.factors hf f hfmem]
  rfl

lemma reconcile_scoreAt (prev next : UIState)
    (hf : (next.factors.map UIFactor.id).Nodup)
    (ho : (next.options.map UIOption.id).Nodup)
    (f : UIFactor) (hfmem : f ∈ next.factors)
    (o : UIOption) (homem : o ∈ next.options) :
    scoreAt (reconcileScores prev next) f.id o.id
      = some ((scoreAt prev.scoresUI f.id o.id).getD 3) := by
  rw [scoreAt_eq_of_rowOf _ _ o.id _ (reconcile_rowOf prev next hf f hfmem)]
  unfold cellOf
  rw [find_map_key UIOption.id
    (fun o => (scoreAt prev.scoresUI f.id o.id).getD 3)
    next.options ho o homem]
  rfl

/-- C2: after `reconcileScores(previousState, nextState)` the score
matrix has exactly one row per factor of `nextState` (in order, no stale
factor ids) and each row exactly one cell per option of `nextState` (no
stale option ids, no missing cells); a cell's value is `previousState`'s
value for the same (factor id, option id) pair when that entry existed,
and the rating-scale midpoint 3 otherwise. -/
theorem reconcileScores_spec (prev next : UIState)
    (hf : (next.factors.map UIFactor.id).Nodup)
    (ho : (next.options.map UIOption.id).Nodup) :
    ((reconcileScores prev next).map Prod.fst = next.factors.map UIFactor.id)
    ∧ (∀ f ∈ next.factors,
        rowOf (reconcileScores prev next) f.id
          = some (next.options.map (fun o =>
              (o.id, (scoreAt prev.scoresUI f.id o.id).getD 3))))
    ∧ (∀ f ∈ next.factors, ∀ o ∈ next.options,
        scoreAt (reconcileScores prev next) f.id o.id
          = some ((scoreAt prev.scoresUI f.id o.id).getD 3))
    ∧ (∀ f ∈ next.factors, ∀ o ∈ next.options, ∀ v : ℚ,
        scoreAt prev.scoresUI f.id o.id = some v →
        scoreAt (reconcileScores prev next) f.id o.id = some v) := by
  refine ⟨reconcile_keys prev next,
    fun f hfmem => reconcile_rowOf prev next hf f hfmem,
    fun f hfmem o homem => reconcile_scoreAt prev next hf ho f hfmem o homem,
    fun f hfmem o homem v hv => ?_⟩
  rw [reconcile_scoreAt prev next hf ho f hfmem o homem, hv]
  rfl

/-- Witness for C2 at a concrete input. -/
theorem reconcileScores_spec_witness :
    scoreAt
        (reconcileScores ⟨[], [], [("f1", [("o1", 5)])]⟩
          ⟨[⟨"o1", "A"⟩, ⟨"o2", "B"⟩], [⟨"f1", "F", 3⟩], []⟩)
        "f1" "o1"
      = some ((scoreAt [("f1", [("o1", 5)])] "f1" "o1").getD 3) :=
  (reconcileScores_spec ⟨[], [], [("f1", [("o1", 5)])]⟩
      ⟨[⟨"o1", "A"⟩, ⟨"o2", "B"⟩], [⟨"f1", "F", 3⟩], []⟩
      (by simp) (by simp)).2.2.1
    ⟨"f1", "F", 3⟩ (by simp) ⟨"o1", "A"⟩ (by simp)

/-- C7: `reconcileScores(s, s)` is a no-op on consistent data: when the
score matrix is already exactly populated for `s.factors × s.options`,
every cell keeps its value (the score read at any pair of ids is
unchanged) and no row or cell keys are added or removed. -/
theorem reconcileScores_idempotent (s : UIState)
    (hf : (s.factors.map UIFactor.id).Nodup)
    (ho : (s.options.map UIOption.id).Nodup)
    (hpop : exactlyPopulated s.scoresUI (s.factors.map UIFactor.id)
      (s.options.map UIOption.id)) :
    (∀ fid oid : String,
        scoreAt (reconcileScores s s) fid oid = scoreAt s.scoresUI fid oid)
    ∧ (∀ fid : String,
        (rowOf (reconcileScores s s) fid).isSome
          ↔ (rowOf s.scoresUI fid).isSome)
    ∧ (∀ fid : String, ∀ rowNew rowOld : ScoreRow,
        rowOf (reconcileScores s s) fid = some rowNew →
        rowOf s.scoresUI fid = some rowOld →
        ∀ oid : String,
          (cellOf rowNew oid).isSome ↔ (cellOf rowOld oid).isSome) := by
  obtain ⟨hkeys, hrows⟩ := hpop
  have hOldSome : ∀ fid : String,
      (rowOf s.scoresUI fid).isSome ↔ fid ∈ s.factors.map UIFactor.id := by
    intro fid
    rw [rowOf_isSome_iff]
    exact hkeys.mem_iff
  have hNewSome : ∀ fid : String,
      (rowOf (reconcileScores s s) fid).isSome
        ↔ fid ∈ s.factors.map UIFactor.id := by
    intro fid
    rw [rowOf_isSome_iff, reconcile_keys]
  have hOldRowKeys : ∀ (fid : String) (rowOld : ScoreRow),
      rowOf s.scoresUI fid = some rowOld →
      ∀ oid : String,
        (cellOf rowOld oid).isSome ↔ oid ∈ s.options.map UIOption.id := by
    intro fid rowOld h oid
    rw [cellOf_isSome_iff]
    exact (hrows _ (rowOf_eq_some_mem _ _ _ h)).mem_iff
  refine ⟨?_, fun fid => (hNewSome fid).trans (hOldSome fid).symm, ?_⟩
  · intro fid oid
    by_cases hin : fid ∈ s.factors.map UIFactor.id
    · obtain ⟨f, hfmem, rfl⟩ := List.mem_map.1 hin
      have hOs : (rowOf s.scoresUI f.id).isSome := (hOldSome f.id).2 hin
      obtain ⟨rowOld, hO⟩ := Option.isSome_iff_exists.1 hOs
      by_cases hoin : oid ∈ s.options.map UIOption.id
      · obtain ⟨o, homem, rfl⟩ := List.mem_map.1 hoin
        rw [reconcile_scoreAt s s hf ho f hfmem o homem]
        have hcs : (cellOf rowOld o.id).isSome :=
          (hOldRowKeys f.id rowOld hO o.id).2 hoin
        obtain ⟨v, hv⟩ := Option.isSome_iff_exists.1 hcs
        have hRHS : scoreAt s.scoresUI f.id o.id = some v := by
          rw [scoreAt_eq_of_rowOf _ _ _ _ hO, hv]
        rw [hRHS]
        rfl
      · have hL : scoreAt (reconcileScores s s) f.id oid = none := by
          rw [scoreAt_eq_of_rowOf _ _ oid _ (reconcile_rowOf s s hf f hfmem)]
          unfold cellOf
          rw [find_map_key_none UIOption.id
            (fun o => (scoreAt s.scoresUI f.id o.id).getD 3)
            s.options oid hoin]
          rfl
        have hR : scoreAt s.scoresUI f.id oid = none := by
          rw [scoreAt_eq_of_rowOf _ _ oid _ hO]
          rw [← Option.not_isSome_iff_eq_none]
          rw [hOldRowKeys f.id rowOld hO oid]
          exact hoin
        rw [hL, hR]
    · have hLnone : rowOf (reconcileScores s s) fid = none := by
        rw [← Option.not_isSome_iff_eq_none, hNewSome]
        exact hin
      have hRnone : rowOf s.scoresUI fid = none := by
        rw [← Option.not_isSome_iff_eq_none, hOldSome]
        exact hin
      rw [scoreAt_eq_none_of_rowOf_none _ _ _ hLnone,
        scoreAt_eq_none_of_rowOf_none _ _ _ hRnone]
  · intro fid rowNew rowOld hN hO oid
    have hin : fid ∈ s.factors.map UIFactor.id := by
      rw [← hNewSome fid, hN]
      rfl
    obtain ⟨f, hfmem, rfl⟩ := List.mem_map.1 hin
    have hrow := reconcile_rowOf s s hf f hfmem
    rw [hN] at hrow
    have hNewKeys : rowNew.map Prod.fst = s.options.map UIOption.id := by
      have hEq : rowNew = s.options.map (fun o =>
          (o.id, (scoreAt s.scoresUI f.id o.id).getD 3)) :=
        Option.some_injective _ hrow
      rw [hEq, List.map_map]
      rfl
    rw [cellOf_isSome_iff, hNewKeys, hOldRowKeys f.id rowOld hO oid]

/-- Witness for C7 at a concrete input. -/
theorem reconcileScores_idempotent_witness :
    scoreAt
        (reconcileScores ⟨[⟨"o1", "A"⟩], [⟨"f1", "F", 3⟩], [("f1", [("o1", 4)])]⟩
          ⟨[⟨"o1", "A"⟩], [⟨"f1", "F", 3⟩], [("f1", [("o1", 4)])]⟩)
        "f1" "o1"
      = scoreAt [("f1", [("o1", 4)])] "f1" "o1" :=
  (reconcileScores_idempotent
      ⟨[⟨"o1", "A"⟩], [⟨"f1", "F", 3⟩], [("f1", [("o1", 4)])]⟩
      (by simp) (by simp)
      (by unfold exactlyPopulated; exact ⟨by decide, by decide⟩)).1
    "f1" "o1"

/-! ## Modified-cell tracking and resize rescaling -/

lemma mem_chartValidKeys (factors : List Factor) (options : List ChartOption)
    (key : String) (h : key ∈ chartValidKeys factors options) :
    ∃ f ∈ factors, ∃ o ∈ options, key = cellKeyStr f.id o.id := by
  unfold chartValidKeys at h
  rcases List.mem_flatMap.1 h with ⟨f, hf, hk⟩
  rcases List.mem_map.1 hk with ⟨o, ho, rfl⟩
  exact ⟨f, hf, o, ho, rfl⟩

lemma mem_builderValidKeys (factors : List UIFactor) (options : List UIOption)
    (key : String) (h : key ∈ builderValidKeys factors options) :
    ∃ f ∈ factors, ∃ o ∈ options, key = cellKeyStr f.id o.id := by
  unfold builderValidKeys at h
  rcases List.mem_flatMap.1 h with ⟨f, hf, hk⟩
  rcases List.mem_map.1 hk with ⟨o, ho, rfl⟩
  exact ⟨f, hf, o, ho, rfl⟩

/-- C10: the modified-cell set stays a subset of the current valid
(factor × option) cross-product: every key surviving
`syncModifiedCells` (either branch) or `pruneTouched` is the cell key of
a factor currently present and an option currently present; keys of
removed ids do not survive the filter. -/
theorem modified_cells_subset_valid (factors : List Factor)
    (options : List ChartOption) (current : List String)
    (modified : Option (List String))
    (ufactors : List UIFactor) (uoptions : List UIOption)
    (touched : List String) :
    (∀ key ∈ syncModifiedCells factors options current modified,
        ∃ f ∈ factors, ∃ o ∈ options, key = cellKeyStr f.id o.id)
    ∧ (∀ key ∈ pruneTouched ufactors uoptions touched,
        ∃ f ∈ ufactors, ∃ o ∈ uoptions, key = cellKeyStr f.id o.id) := by
  constructor
  · intro key hkey
    apply mem_chartValidKeys factors options key
    unfold syncModifiedCells at hkey
    cases modified with
    | some m =>
      simp only [List.mem_filter] at hkey
      exact List.mem_of_elem_eq_true hkey.2
    | none =>
      simp only [List.mem_filter] at hkey
      exact List.mem_of_elem_eq_true hkey.2
  · intro key hkey
    apply mem_builderValidKeys ufactors uoptions key
    unfold pruneTouched at hkey
    simp only [List.mem_filter] at hkey
    exact List.mem_of_elem_eq_true hkey.2

/-- Witness for C10 at a concrete input. -/
theorem modified_cells_subset_valid_witness :
    ∃ f ∈ [(⟨"f1", "F", 1⟩ : Factor)], ∃ o ∈ [(⟨"o1", "A", 1⟩ : ChartOption)],
      "f1__o1" = cellKeyStr f.id o.id :=
  (modified_cells_subset_valid [⟨"f1", "F", 1⟩] [⟨"o1", "A", 1⟩] []
      (some ["f1__o1", "gone__o1"]) [] [] []).1
    "f1__o1" (by decide)

/-- C9: the row-resize drag handler writes back exactly
`clamp(startWeight * (newExtent / startExtent), 1, 2)` where `newExtent`
is the resulting extent (the dragged extent floored at 10 px) and `[1,2]`
is the supported weight range. -/
theorem resize_weight_rescale (startWeight startExtent delta : ℚ)
    (h : 0 < startExtent) :
    rowResizeNewWeight startWeight startExtent delta
      = clampQ (startWeight * (max 10 (startExtent + delta) / startExtent)) 1 2 := by
  unfold rowResizeNewWeight clampQ
  rfl

/-- Witness for C9 at a concrete input. -/
theorem resize_weight_rescale_witness :
    rowResizeNewWeight 1 100 50
      = clampQ (1 * (max 10 (100 + 50) / 100)) 1 2 :=
  resize_weight_rescale 1 100 50 (by norm_num)

/-! ## Proportional geometry allocator -/

lemma sum_map_mul_right (l : List ℚ) (c : ℚ) :
    (l.map (fun x => x * c)).sum = l.sum * c := by
  induction l with
  | nil => simp
  | cons x l ih =>
    simp only [List.map_cons, List.sum_cons, ih]
    ring

lemma sum_map_alloc (l : List ℚ) (m fr t c : ℚ) :
    (l.map (fun w => (m + fr * (w / t)) * c)).sum
      = (m * l.length + (fr / t) * l.sum) * c := by
  induction l with
  | nil => simp
  | cons x l ih =>
    simp only [List.map_cons, List.sum_cons, ih, List.length_cons]
    push_cast
    ring

lemma clampedWeights_nonneg (weights : List ℚ) :
    ∀ w ∈ weights.map (fun w => max 0 w), 0 ≤ w := by
  intro w hw
  rcases List.mem_map.1 hw with ⟨x, _, rfl⟩
  exact le_max_left 0 x

lemma totalW_pos (weights : List ℚ) :
    0 < max (1 / 1000000) (weights.map (fun w => max 0 w)).sum :=
  lt_of_lt_of_le (by norm_num) (le_max_left _ _)

lemma clampedSum_le_totalW (weights : List ℚ) :
    (weights.map (fun w => max 0 w)).sum
      ≤ max (1 / 1000000) (weights.map (fun w => max 0 w)).sum :=
  le_max_right _ _

/-- C3: for every non-negative weight sequence, positive minimum extent
and positive available extent, both the row allocation and the column
allocation (with its non-negative per-item gap) return extents that are
each non-negative and sum to at most the available extent — the final
uniform scale-down pass guarantees the fit. -/
theorem allocator_extents_fit (weights : List ℚ) (minPx avail gap : ℚ)
    (hmin : 0 < minPx) (havail : 0 < avail) (hgap : 0 ≤ gap)
    (hw : ∀ w ∈ weights, 0 ≤ w) :
    ((∀ h ∈ allocateRowHeights weights minPx avail, 0 ≤ h)
      ∧ (allocateRowHeights weights minPx avail).sum ≤ avail)
    ∧ ((∀ x ∈ allocateColWidths weights minPx avail gap, 0 ≤ x)
      ∧ (allocateColWidths weights minPx avail gap).sum ≤ avail) := by
  have hTWpos := totalW_pos weights
  constructor
  · simp only [allocateRowHeights]
    set ws := weights.map (fun w => max 0 w) with hws
    set totalW := max (1 / 1000000) ws.sum with htW
    set base := minPx * (weights.length : ℚ) with hbase
    set free := max 0 (avail - base) with hfree
    set compress := if avail < base then avail / base else 1 with hcompress
    set heights := ws.map (fun w => (minPx + free * (w / totalW)) * compress)
      with hheights
    have hcnn : 0 ≤ compress := by
      rw [hcompress]
      split
      · rename_i hb
        exact div_nonneg havail.le (le_trans havail.le hb.le)
      · norm_num
    have hnn : ∀ h ∈ heights, 0 ≤ h := by
      intro h hh
      rw [hheights] at hh
      rcases List.mem_map.1 hh with ⟨w, hwmem, rfl⟩
      have hw0 : 0 ≤ w := clampedWeights_nonneg weights w hwmem
      have : 0 ≤ minPx + free * (w / totalW) := by
        have : 0 ≤ free * (w / totalW) :=
          mul_nonneg (le_max_left 0 _) (div_nonneg hw0 hTWpos.le)
        linarith
      exact mul_nonneg this hcnn
    by_cases hfit : avail < heights.sum
    · rw [if_pos hfit]
      have hsne : heights.sum ≠ 0 := (lt_trans havail hfit).ne.symm
      constructor
      · intro h hh
        rcases List.mem_map.1 hh with ⟨x, hx, rfl⟩
        exact mul_nonneg (hnn x hx)
          (div_nonneg havail.le (lt_trans havail hfit).le)
      · rw [sum_map_mul_right, mul_comm, div_mul_cancel₀ _ hsne]
    · rw [if_neg hfit]
      exact ⟨hnn, le_of_not_lt hfit⟩
  · simp only [allocateColWidths]
    set ws := weights.map (fun w => max 0 w) with hws
    set totalW := max (1 / 1000000) ws.sum with htW
    set base := minPx * (weights.length : ℚ) with hbase
    set free := max 0 (avail - base) with hfree
    set compress := if avail < base then avail / base else 1 with hcompress
    set widths := ws.map (fun w => (minPx + free * (w / totalW)) * compress + gap)
      with hwidths
    have hcnn : 0 ≤ compress := by
      rw [hcompress]
      split
      · rename_i hb
        exact div_nonneg havail.le (le_trans havail.le hb.le)
      · norm_num
    have hnn : ∀ h ∈ widths, 0 ≤ h := by
      intro h hh
      rw [hwidths] at hh
      rcases List.mem_map.1 hh with ⟨w, hwmem, rfl⟩
      have hw0 : 0 ≤ w := clampedWeights_nonneg weights w hwmem
      have h1 : 0 ≤ minPx + free * (w / totalW) := by
        have : 0 ≤ free * (w / totalW) :=
          mul_nonneg (le_max_left 0 _) (div_nonneg hw0 hTWpos.le)
        linarith
      have := mul_nonneg h1 hcnn
      linarith
    by_cases hfit : avail < widths.sum
    · rw [if_pos hfit]
      have hsne : widths.sum ≠ 0 := (lt_trans havail hfit).ne.symm
      constructor
      · intro h hh
        rcases List.mem_map.1 hh with ⟨x, hx, rfl⟩
        exact mul_nonneg (hnn x hx)
          (div_nonneg havail.le (lt_trans havail hfit).le)
      · rw [sum_map_mul_right, mul_comm, div_mul_cancel₀ _ hsne]
    · rw [if_neg hfit]
      exact ⟨hnn, le_of_not_lt hfit⟩

/-- Witness for C3 at a concrete input. -/
theorem allocator_extents_fit_witness :
    (allocateRowHeights [1, 1] 28 100).sum ≤ 100 :=
  ((allocator_extents_fit [1, 1] 28 100 15 (by norm_num) (by norm_num)
      (by norm_num) (by norm_num)).1).2

/-- C4: with a positive minimum extent, (a) when the available extent is
at least `minPx * n` every allocated row extent is at least `minPx` and
no compression or final rescale applies; (b) when the available extent is
smaller than `minPx * n`, every allocated extent equals its uncompressed
value multiplied by the single ratio `avail / (minPx * n)`. -/
theorem allocator_floor_and_compression (weights : List ℚ) (minPx avail : ℚ)
    (hmin : 0 < minPx) :
    (minPx * (weights.length : ℚ) ≤ avail →
      ∀ h ∈ allocateRowHeights weights minPx avail, minPx ≤ h)
    ∧ (avail < minPx * (weights.length : ℚ) →
      allocateRowHeights weights minPx avail
        = weights.map (fun w =>
            uncompressedRowHeight weights minPx avail w
              * (avail / (minPx * (weights.length : ℚ))))) := by
  constructor
  · intro hge
    simp only [allocateRowHeights]
    set ws := weights.map (fun w => max 0 w) with hws
    set totalW := max (1 / 1000000) ws.sum with htW
    set base := minPx * (weights.length : ℚ) with hbase
    have hfree : max 0 (avail - base) = avail - base :=
      max_eq_right (sub_nonneg.2 hge)
    have hnotlt : ¬ avail < base := not_lt.2 hge
    rw [if_neg hnotlt, hfree]
    set free := avail - base with hfreedef
    have hfreenn : 0 ≤ free := sub_nonneg.2 hge
    have hTW : 0 < totalW := totalW_pos weights
    have hS0 : 0 ≤ ws.sum :=
      List.sum_nonneg (clampedWeights_nonneg weights)
    have hSle : ws.sum ≤ totalW := le_max_right _ _
    have hsum : (ws.map (fun w => (minPx + free * (w / totalW)) * 1)).sum
        = (minPx * ws.length + (free / totalW) * ws.sum) * 1 :=
      sum_map_alloc ws minPx free totalW 1
    have hlen : (ws.length : ℚ) = (weights.length : ℚ) := by
      rw [hws, List.length_map]
    have hfrac : (free / totalW) * ws.sum ≤ free := by
      have h1 : (free / totalW) * ws.sum ≤ (free / totalW) * totalW :=
        mul_le_mul_of_nonneg_left hSle (div_nonneg hfreenn hTW.le)
      rwa [div_mul_cancel₀ _ hTW.ne.symm] at h1
    have hsumle : (ws.map (fun w => (minPx + free * (w / totalW)) * 1)).sum ≤ avail := by
      rw [hsum, mul_one, hlen]
      have : minPx * (weights.length : ℚ) + free = avail := by
        rw [hfreedef, hbase]
        ring
      linarith
    rw [if_neg (not_lt.2 hsumle)]
    intro h hh
    rcases List.mem_map.1 hh with ⟨w, hwmem, rfl⟩
    have hw0 : 0 ≤ w := clampedWeights_nonneg weights w hwmem
    have : 0 ≤ free * (w / totalW) :=
      mul_nonneg hfreenn (div_nonneg hw0 hTW.le)
    nlinarith
  · intro hlt
    simp only [allocateRowHeights, uncompressedRowHeight]
    set ws := weights.map (fun w => max 0 w) with hws
    set totalW := max (1 / 1000000) ws.sum with htW
    set base := minPx * (weights.length : ℚ) with hbase
    have hfree : max 0 (avail - base) = 0 :=
      max_eq_left (sub_nonpos.2 hlt.le)
    rw [if_pos hlt, hfree]
    rcases List.eq_nil_or_concat weights with hnil | ⟨_, _, hne⟩
    · subst hnil
      simp [hws]
    · have hn1 : 1 ≤ weights.length := by
        rcases hne with ⟨l2, a, rfl⟩
        simp
      have hbasepos : 0 < base := by
        rw [hbase]
        have : (0 : ℚ) < (weights.length : ℚ) := by
          exact_mod_cast Nat.lt_of_lt_of_le Nat.zero_lt_one hn1
        positivity
      have hsum : (ws.map (fun w => (minPx + 0 * (w / totalW)) * (avail / base))).sum
          = (minPx * ws.length + (0 / totalW) * ws.sum) * (avail / base) :=
        sum_map_alloc ws minPx 0 totalW (avail / base)
      have hlen : (ws.length : ℚ) = (weights.length : ℚ) := by
        rw [hws, List.length_map]
      have hsumeq : (ws.map (fun w => (minPx + 0 * (w / totalW)) * (avail / base))).sum
          = avail := by
        rw [hsum, hlen, zero_div, zero_mul, add_zero, ← hbase,
          mul_comm base (avail / base), div_mul_cancel₀ _ hbasepos.ne.symm]
      rw [hsumeq, if_neg (lt_irrefl avail)]
      rw [hws, List.map_map]
      apply List.map_congr_left
      intro w hwmem
      simp only [Function.comp_apply]

/-- Witness for C4 at a concrete input. -/
theorem allocator_floor_and_compression_witness :
    (28 : ℚ) ≤ (allocateRowHeights [1, 1] 28 100).headI :=
  (allocator_floor_and_compression [1, 1] 28 100 (by norm_num)).1 (by norm_num)
    (allocateRowHeights [1, 1] 28 100).headI
    (by simp [allocateRowHeights]; norm_num)

/-! ## Drag-reorder target resolution -/

lemma foldl_fun_congr {α β : Type} (f g : β → α → β) (h : ∀ b a, f b a = g b a) :
    ∀ (l : List α) (b : β), l.foldl f b = l.foldl g b := by
  intro l
  induction l with
  | nil => intro b; rfl
  | cons a l ih =>
    intro b
    simp only [List.foldl_cons, h b a, ih]

lemma lastHitLoop_succ (p : ℕ → Bool) (n : ℕ) :
    lastHitLoop p (n + 1) = if p n then n + 1 else lastHitLoop p n := by
  unfold lastHitLoop
  rw [List.range_succ, List.foldl_append]
  simp only [List.foldl_cons, List.foldl_nil]

lemma countP_lt_prefix (c : ℕ → ℚ) (d : ℚ) :
    ∀ n : ℕ, (∀ i j : ℕ, i < j → j < n → c i < c j) →
      ∀ i, i < n →
        (c i < d ↔ i < (List.range n).countP (fun i => decide (c i < d))) := by
  intro n
  induction n with
  | zero => intro _ i hi; omega
  | succ n ih =>
    intro hmono i hi
    have hmono2 : ∀ i j : ℕ, i < j → j < n → c i < c j :=
      fun i j h1 h2 => hmono i j h1 (Nat.lt_succ_of_lt h2)
    have hKn : (List.range n).countP (fun i => decide (c i < d)) ≤ n := by
      have h := List.countP_le_length
        (p := fun i => decide (c i < d)) (l := List.range n)
      simpa using h
    rw [List.range_succ, List.countP_append, List.countP_cons, List.countP_nil]
    by_cases hcn : c n < d
    · have hall : ∀ x ∈ List.range n, (fun i => decide (c i < d)) x = true := by
        intro x hx
        simp only [List.mem_range] at hx
        simp only [decide_eq_true_eq]
        exact lt_trans (hmono x n hx (Nat.lt_succ_self n)) hcn
      have hcount : (List.range n).countP (fun i => decide (c i < d)) = n := by
        rw [List.countP_eq_length.2 hall, List.length_range]
      rw [hcount, if_pos (decide_eq_true hcn)]
      constructor
      · intro _
        omega
      · intro _
        rcases Nat.lt_succ_iff_lt_or_eq.1 hi with hlt | heq
        · exact lt_trans (hmono i n hlt (Nat.lt_succ_self n)) hcn
        · exact heq ▸ hcn
    · have hzero : (if decide (c n < d) = true then 1 else 0) = 0 := by
        simp [hcn]
      simp only [hzero, add_zero, zero_add, Nat.add_zero]
      rcases Nat.lt_succ_iff_lt_or_eq.1 hi with hlt | heq
      · exact ih hmono2 i hlt
      · subst heq
        constructor
        · intro hc
          exact absurd hc hcn
        · intro hK
          omega

lemma lastHitLoop_eq (idx : ℕ) :
    ∀ (n K : ℕ), K ≤ n → ∀ (q : ℕ → Bool),
      (∀ i, i < n → (q i = true ↔ (i < K ∧ i ≠ idx))) →
      lastHitLoop q n
        = if K = 0 then 0 else if idx = K - 1 then K - 1 else K := by
  intro n
  induction n with
  | zero =>
    intro K hK q _
    have hK0 : K = 0 := by omega
    subst hK0
    rfl
  | succ n ih =>
    intro K hK q hq
    rw [lastHitLoop_succ]
    by_cases hqn : q n = true
    · have hn := (hq n (Nat.lt_succ_self n)).1 hqn
      have hKeq : K = n + 1 := by omega
      subst hKeq
      rw [if_pos hqn, if_neg (by omega : ¬ n + 1 = 0),
        if_neg (by omega : ¬ idx = n + 1 - 1)]
    · rw [if_neg hqn]
      by_cases hKle : K ≤ n
      · exact ih K hKle q (fun i hi => hq i (Nat.lt_succ_of_lt hi))
      · have hKeq : K = n + 1 := by omega
        subst hKeq
        have hidx : n = idx := by
          by_contra hne
          exact hqn ((hq n (Nat.lt_succ_self n)).2 ⟨Nat.lt_succ_self n, by omega⟩)
        subst hidx
        have hq2 : ∀ i, i < n → (q i = true ↔ (i < n ∧ i ≠ n)) := by
          intro i hi
          rw [hq i (Nat.lt_succ_of_lt hi)]
          constructor
          · intro _
            exact ⟨hi, by omega⟩
          · intro _
            exact ⟨by omega, by omega⟩
        rw [ih n le_rfl q hq2]
        by_cases hn0 : n = 0
        · subst hn0
          rfl
        · rw [if_neg hn0, if_neg (by omega : ¬ n = n - 1),
            if_neg (by omega : ¬ n + 1 = 0), if_pos (by omega : n = n + 1 - 1)]
          omega

lemma countP_q_eq (idx : ℕ) :
    ∀ (n K : ℕ), K ≤ n → ∀ (q : ℕ → Bool),
      (∀ i, i < n → (q i = true ↔ (i < K ∧ i ≠ idx))) →
      (List.range n).countP q = if idx < K then K - 1 else K := by
  intro n
  induction n with
  | zero =>
    intro K hK q _
    have hK0 : K = 0 := by omega
    subst hK0
    rfl
  | succ n ih =>
    intro K hK q hq
    rw [List.range_succ, List.countP_append, List.countP_cons, List.countP_nil]
    by_cases hqn : q n = true
    · have hn := (hq n (Nat.lt_succ_self n)).1 hqn
      have hKeq : K = n + 1 := by omega
      subst hKeq
      have hq2 : ∀ i, i < n → (q i = true ↔ (i < n ∧ i ≠ idx)) := by
        intro i hi
        rw [hq i (Nat.lt_succ_of_lt hi)]
        constructor
        · intro h
          exact ⟨hi, h.2⟩
        · intro h
          exact ⟨by omega, h.2⟩
      rw [ih n le_rfl q hq2, if_pos hqn]
      split_ifs <;> omega
    · have hzero : (if q n = true then 1 else 0) = 0 := by
        simp [hqn]
      simp only [hzero, add_zero, zero_add, Nat.add_zero]
      by_cases hKle : K ≤ n
      · exact ih K hKle q (fun i hi => hq i (Nat.lt_succ_of_lt hi))
      · have hKeq : K = n + 1 := by omega
        subst hKeq
        have hidx : n = idx := by
          by_contra hne
          exact hqn ((hq n (Nat.lt_succ_self n)).2 ⟨Nat.lt_succ_self n, by omega⟩)
        subst hidx
        have hq2 : ∀ i, i < n → (q i = true ↔ (i < n ∧ i ≠ n)) := by
          intro i hi
          rw [hq i (Nat.lt_succ_of_lt hi)]
          constructor
          · intro _
            exact ⟨hi, by omega⟩
          · intro _
            exact ⟨by omega, by omega⟩
        rw [ih n le_rfl q hq2]
        split_ifs <;> omega

/-- C8 counterexample: with two items of extent 10 at cumulative offsets
0 and 10 (offsets increasing in index order) and the dragged item 0's
center at 16 — just past item 1's center 15 — the code resolves the
target index to 1, while the spec's formula (count of other items whose
center lies before, minus one when that count exceeds the original
index) yields 0. -/
theorem reorder_target_spec_counterexample :
    resolveReorderTarget [0, 10] [10, 10] 0 16 = 1
    ∧ specReorderTarget [0, 10] [10, 10] 0 16 = 0
    ∧ resolveReorderTarget [0, 10] [10, 10] 0 16
        ≠ specReorderTarget [0, 10] [10, 10] 0 16 := by
  refine ⟨?_, ?_, ?_⟩
  · norm_num [resolveReorderTarget, centerAt, List.range_succ]
  · norm_num [specReorderTarget, countCentersBefore, centerAt, List.range_succ]
  · norm_num [resolveReorderTarget, specReorderTarget, countCentersBefore,
      centerAt, List.range_succ]

/-- C8 (amended): for every reorder drag whose static item centers are
strictly increasing in index order (always true for the cumulative
layout offsets), the drag-end resolution returns exactly the count of
other items whose center lies strictly before the dragged item's center —
with no further adjustment: the `-1` step inside the code compensates
for its scan producing `lastIndex + 1` rather than a count.  The same
single definition models both the column- and the row-reorder handler,
which are textually identical. -/
theorem resolveReorderTarget_eq_countBefore (offsets extents : List ℚ)
    (idx : ℕ) (d : ℚ) (hidx : idx < offsets.length)
    (hmono : ∀ i j : ℕ, i < j → j < offsets.length →
      centerAt offsets extents i < centerAt offsets extents j) :
    resolveReorderTarget offsets extents idx d
      = countCentersBefore offsets extents idx d := by
  set n := offsets.length with hn
  set c := centerAt offsets extents with hc
  set q : ℕ → Bool := fun i => decide (i ≠ idx) && decide (c i < d) with hqd
  set K := (List.range n).countP (fun i => decide (c i < d)) with hKd
  have hKn : K ≤ n := by
    rw [hKd]
    have h := List.countP_le_length
      (p := fun i => decide (c i < d)) (l := List.range n)
    simpa using h
  have hq : ∀ i, i < n → (q i = true ↔ (i < K ∧ i ≠ idx)) := by
    intro i hi
    have hpre := countP_lt_prefix c d n hmono i hi
    rw [hqd]
    simp only [Bool.and_eq_true, decide_eq_true_eq]
    rw [← hKd] at hpre
    tauto
  have hloop : resolveReorderTarget offsets extents idx d
      = (if idx < lastHitLoop q n then lastHitLoop q n - 1
         else lastHitLoop q n) := by
    unfold resolveReorderTarget lastHitLoop
    rw [foldl_fun_congr
      (fun acc i =>
        if i = idx then acc
        else if centerAt offsets extents i < d then i + 1 else acc)
      (fun acc i => if q i then i + 1 else acc)
      (by
        intro b a
        rw [hqd]
        by_cases h1 : a = idx
        · simp [h1]
        · by_cases h2 : c a < d
          · simp [h1, h2, hc]
          · simp [h1, h2, hc])
      (List.range offsets.length) 0]
  have hcount : countCentersBefore offsets extents idx d
      = (List.range n).countP q := by
    unfold countCentersBefore
    rw [hqd, hc, hn]
    rw [← List.countP_eq_length_filter]
  rw [hloop, lastHitLoop_eq idx n K hKn q hq, hcount,
    countP_q_eq idx n K hKn q hq]
  split_ifs <;> omega

/-- Witness for the amended C8 at a concrete input. -/
theorem reorder_target_count_witness :
    resolveReorderTarget [0, 10] [10, 10] 0 16
      = countCentersBefore [0, 10] [10, 10] 0 16 :=
  resolveReorderTarget_eq_countBefore [0, 10] [10, 10] 0 16 (by norm_num)
    (by
      intro i j hij hj
      simp only [List.length_cons, List.length_nil] at hj
      interval_cases j
      · omega
      · interval_cases i
        norm_num [centerAt])

end DecisionVis
